import Mathlib

/-!
Shallow embedding of the stock-prediction data pipeline.

The repository contains two pipeline variants:
  * `data-loader.js` (`DataLoader.prepareData`): pivot, forward fill,
    min-max normalisation, sliding-window sample/label construction,
    chronological 80/20 split;
  * the modular variant (`parseAndPivot` / `computeMinMax` / `norm` /
    `createSequences`) plus `gru.js` (`evaluatePerStock`,
    `computePerStockAccuracy`, `getPredictionTimeline`).

Values are modelled as `Option ℚ`:
  * before normalisation, `none` is JavaScript `null` (a hole in the
    pivoted series);
  * after normalisation, `none` is JavaScript `NaN` (which arises from
    the unguarded division `(v - min) / (max - min)` when `max == min`,
    since `0/0 = NaN` for JS numbers).
JS comparison semantics on such values (`NaN > x` and `undefined > x`
are `false`) are captured by `jsGT`.
-/

/-- JavaScript strict-greater on numbers where `none` stands for
`NaN`/`undefined`: any comparison involving `none` is `false`. -/
def jsGT : Option ℚ → Option ℚ → Bool
  | some a, some b => decide (b < a)
  | _, _ => false

/-! ## Gap Filler (data-loader.js, prepareData lines 62-74)

`lastValue` starts as `null`; a non-null entry updates it, a null entry
is overwritten with `lastValue` when that is non-null. -/

/-- Forward fill with the running `lastValue` accumulator. -/
def ffillAux : Option ℚ → List (Option ℚ) → List (Option ℚ)
  | _, [] => []
  | last, x :: xs =>
    match x with
    | some v => some v :: ffillAux (some v) xs
    | none =>
      match last with
      | some v => some v :: ffillAux (some v) xs
      | none => none :: ffillAux none xs

/-- Forward fill of one entity/field series, `lastValue = null` initially. -/
def ffill (l : List (Option ℚ)) : List (Option ℚ) := ffillAux none l

/-- The value of the nearest (rightmost) non-hole entry of a list, used to
state what forward fill must produce; `none` when every entry is a hole. -/
def lastSome : List (Option ℚ) → Option ℚ
  | [] => none
  | x :: xs =>
    match lastSome xs with
    | some v => some v
    | none => x

/-! ## Normalizer

`data-loader.js` (prepareData lines 76-90) computes min/max over the
non-null values and maps `val ≠ null ↦ (val - min) / (max - min)`,
`null ↦ 0`, with no guard for `max == min`: a constant series produces
`0/0 = NaN` at every non-null position (modelled as `none`).

The modular variant instead has the guarded helper `norm`. -/

/-- Minimum of a list of rationals, `none` on the empty list
(JS `Math.min(...[])` is `Infinity`, never consumed in that case). -/
def listMin : List ℚ → Option ℚ
  | [] => none
  | x :: xs => some (xs.foldl min x)

/-- Maximum of a list of rationals, `none` on the empty list. -/
def listMax : List ℚ → Option ℚ
  | [] => none
  | x :: xs => some (xs.foldl max x)

/-- Elementwise normalisation step of `prepareData`:
`null ↦ 0`; a number maps to `(v - min) / (max - min)`, which is `NaN`
(here `none`) when `max = min` because the numerator is then also `0`. -/
def normElem (mn mx : Option ℚ) : Option ℚ → Option ℚ
  | none => some 0
  | some v =>
    match mn, mx with
    | some a, some b => if b = a then none else some ((v - a) / (b - a))
    | _, _ => none

/-- Normalisation of one series as `prepareData` does it: fit min/max on
the non-null values of the (post-fill) series, then map elementwise. -/
def normalizeSeries (l : List (Option ℚ)) : List (Option ℚ) :=
  let values := l.filterMap id
  l.map (normElem (listMin values) (listMax values))

/-- The guarded scaler of the modular variant (`norm(val, min, max)`):
`0` when `max == min`, else `(val - min) / (max - min)`. -/
def norm (val mn mx : ℚ) : ℚ :=
  if mx = mn then 0 else (val - mn) / (mx - mn)

/-- Forward fill followed by normalisation, the per-series processing
`prepareData` performs before windowing. -/
def processSeries (l : List (Option ℚ)) : List (Option ℚ) :=
  normalizeSeries (ffill l)

/-! ## Window/Label Builder (data-loader.js, prepareData lines 92-125)

The loop runs `i` from `WINDOW_SIZE` while `i < allDates.length -
PREDICTION_DAYS`; every such `i` yields one sample and one label vector
(there is no validity filtering). -/

/-- The list of loop indices `[lookback, ..., len - horizon - 1]` of the
window-building loop. -/
def anchorList (len lookback horizon : Nat) : List Nat :=
  List.range' lookback (len - horizon - lookback)

/-- One input sample: `lookback` time steps `j = i - lookback, ..., i - 1`,
each the concatenation over entities (in the given order) of the
normalised open and close values at `j`. -/
def sampleFor (symbols : List Nat) (op cl : Nat → List (Option ℚ))
    (lookback i : Nat) : List (List (Option ℚ)) :=
  (List.range lookback).map (fun t =>
    let j := i - lookback + t
    symbols.flatMap (fun sym => [(op sym).getD j none, (cl sym).getD j none]))

/-- One label vector: for each entity in order, the baseline is the close
at `i - 1` and for `k = 0, ..., horizon - 1` the entry is `1` when the
close at `i + k` strictly exceeds the baseline, else `0`. -/
def labelFor (symbols : List Nat) (cl : Nat → List (Option ℚ))
    (horizon i : Nat) : List Nat :=
  symbols.flatMap (fun sym =>
    (List.range horizon).map (fun k =>
      if jsGT ((cl sym).getD (i + k) none) ((cl sym).getD (i - 1) none)
      then 1 else 0))

/-- All samples, in increasing loop-index order. -/
def prepareSamples (symbols : List Nat) (op cl : Nat → List (Option ℚ))
    (len lookback horizon : Nat) : List (List (List (Option ℚ))) :=
  (anchorList len lookback horizon).map
    (fun i => sampleFor symbols (fun s => processSeries (op s))
      (fun s => processSeries (cl s)) lookback i)

/-- All label vectors, in increasing loop-index order. -/
def prepareLabels (symbols : List Nat) (cl : Nat → List (Option ℚ))
    (len lookback horizon : Nat) : List (List Nat) :=
  (anchorList len lookback horizon).map
    (fun i => labelFor symbols (fun s => processSeries (cl s)) horizon i)

/-! ## Chronological Splitter (data-loader.js, prepareData lines 127-133)

`splitIndex = Math.floor(samples.length * 0.8)`; for every sample count
representable in the pipeline this equals `⌊4·N/5⌋` (the rounding error
of the double `0.8` never moves the product across an integer). -/

/-- The split point `Math.floor(N * 0.8)` as exact arithmetic. -/
def splitIndex (n : Nat) : Nat := n * 4 / 5

/-- Train part: `samples.slice(0, splitIndex)`. -/
def trainPart (samples : List α) : List α :=
  samples.take (splitIndex samples.length)

/-- Test part: `samples.slice(splitIndex)`. -/
def testPart (samples : List α) : List α :=
  samples.drop (splitIndex samples.length)

/-! ## Pivot Builder entity extraction

`data-loader.js` line 39: `[...new Set(rawData.map(row => row.Symbol))]`
keeps first-occurrence order. The modular variant
(`parseAndPivot` line 74) sorts: `Array.from(symSet).sort()`. -/

/-- A raw observation row (entity identifiers as naturals). -/
structure Row where
  date : Nat
  symbol : Nat
  openV : ℚ
  closeV : ℚ
deriving DecidableEq, Repr

/-- Deduplication in first-occurrence order, the JS
`[...new Set(list)]` idiom; `seen` collects already-emitted elements. -/
def dedupFirstAux : List Nat → List Nat → List Nat
  | _, [] => []
  | seen, x :: xs =>
    if x ∈ seen then dedupFirstAux seen xs
    else x :: dedupFirstAux (x :: seen) xs

/-- Deduplication in first-occurrence order. -/
def dedupFirst (l : List Nat) : List Nat := dedupFirstAux [] l

/-- Entity list as `prepareData` builds it (insertion order, unsorted). -/
def extractSymbols (rows : List Row) : List Nat :=
  dedupFirst (rows.map (·.symbol))

/-- Entity list as `parseAndPivot` builds it (deduplicated then sorted). -/
def extractSymbolsSorted (rows : List Row) : List Nat :=
  List.insertionSort (· ≤ ·) (dedupFirst (rows.map (·.symbol)))

/-! ## Evaluation Aggregator (gru.js `evaluatePerStock`, and
`computePerStockAccuracy`/`getPredictionTimeline`)

For entity block `idx` the flattened column is `idx * horizon + h`;
`predVal = yPred[s][tgt] > 0.5 ? 1 : 0`; a record carries the predicted
class, the true label and the correctness flag; the accuracy is
`correct / total`, which for zero samples is JS `0/0 = NaN`
(modelled as `none`). -/

/-- One prediction record (`{predicted, actual, correct}` in
`getPredictionTimeline`; `{pred, true, correct}` in `evaluatePerStock`). -/
structure PredictionRecord where
  predicted : ℚ
  actual : ℚ
  correct : Bool
deriving DecidableEq, Repr

/-- Thresholding of a predicted probability: class `1` exactly when the
probability strictly exceeds `0.5`. -/
def classify (p : ℚ) : ℚ := if 1/2 < p then 1 else 0

/-- The per-entity double loop of `evaluatePerStock`: returns the
`(correct, total, preds)` counters after scanning every sample `s` and
horizon day `h` of entity block `idx`. -/
def evalStock (yTrue yPred : List (List ℚ)) (idx horizon : Nat) :
    Nat × Nat × List PredictionRecord :=
  (List.range yTrue.length).foldl (fun acc s =>
    (List.range horizon).foldl (fun acc2 h =>
      let tgt := idx * horizon + h
      let trueVal := (yTrue.getD s []).getD tgt 0
      let predVal := classify ((yPred.getD s []).getD tgt 0)
      ( (if trueVal = predVal then acc2.1 + 1 else acc2.1),
        acc2.2.1 + 1,
        acc2.2.2 ++ [⟨predVal, trueVal, trueVal = predVal⟩])) acc) (0, 0, [])

/-- Per-entity accuracy and record list for entity blocks
`0, ..., numStocks - 1`; accuracy is `none` (JS `NaN`) when the total
count is zero. -/
def evaluatePerStock (yTrue yPred : List (List ℚ))
    (horizon numStocks : Nat) : List (Option ℚ × List PredictionRecord) :=
  (List.range numStocks).map (fun idx =>
    let r := evalStock yTrue yPred idx horizon
    (if r.2.1 = 0 then none else some ((r.1 : ℚ) / (r.2.1 : ℚ)), r.2.2))

/-! ## General lemmas -/

theorem ffillAux_cons_none (acc : Option ℚ) (xs : List (Option ℚ)) :
    ffillAux acc (none :: xs) = acc :: ffillAux acc xs := by
  cases acc <;> rfl

theorem ffillAux_cons_some (acc : Option ℚ) (v : ℚ) (xs : List (Option ℚ)) :
    ffillAux acc (some v :: xs) = some v :: ffillAux (some v) xs := rfl

theorem ffillAux_length (l : List (Option ℚ)) :
    ∀ acc : Option ℚ, (ffillAux acc l).length = l.length := by
  induction l with
  | nil => intro acc; rfl
  | cons x xs ih =>
    intro acc
    cases x with
    | none => rw [ffillAux_cons_none]; simp [ih]
    | some v => rw [ffillAux_cons_some]; simp [ih]

theorem ffill_length (l : List (Option ℚ)) : (ffill l).length = l.length :=
  ffillAux_length l none

/-- Indexing into a flatMap whose blocks all have length `h`: entry
`e * h + k` is entry `k` of block `e`. -/
theorem flatMap_blocks {α β : Type} (f : α → List β) (h : Nat)
    (hf : ∀ a, (f a).length = h) :
    ∀ (l : List α) (e k : Nat), e < l.length → k < h →
      (l.flatMap f)[e * h + k]? = (l[e]?).bind (fun a => (f a)[k]?) := by
  intro l
  induction l with
  | nil => intro e k he _; simp at he
  | cons a t ih =>
    intro e k he hk
    cases e with
    | zero =>
      rw [List.flatMap_cons, Nat.zero_mul, Nat.zero_add,
        List.getElem?_append_left (by rw [hf]; exact hk)]
      simp
    | succ e' =>
      have harith : (e' + 1) * h + k = (f a).length + (e' * h + k) := by
        rw [hf, Nat.succ_mul]; omega
      rw [List.flatMap_cons, harith,
        List.getElem?_append_right (Nat.le_add_right _ _),
        Nat.add_sub_cancel_left, List.getElem?_cons_succ]
      exact ih e' k (Nat.lt_of_succ_lt_succ he) hk

/-! ## Claim theorems -/

/-- C2: with `lookback_length = 12` and `horizon_length = 3`, position `i`
is a candidate anchor of the window loop exactly when `i - 12 ≥ 0` (i.e.
`12 ≤ i`) and `i + 3 ≤ len - 1`; for any axis long enough the minimum
candidate `12` and the maximum candidate `len - 4` are produced, while
`11` and `len - 3` never are. -/
theorem anchor_candidate_bounds :
    (∀ len i, i ∈ anchorList len 12 3 ↔ 12 ≤ i ∧ i + 3 ≤ len - 1)
    ∧ (∀ len, 16 ≤ len →
        12 ∈ anchorList len 12 3 ∧ (len - 4) ∈ anchorList len 12 3
        ∧ 11 ∉ anchorList len 12 3 ∧ (len - 3) ∉ anchorList len 12 3) := by
  have hmem : ∀ len i, i ∈ anchorList len 12 3 ↔ 12 ≤ i ∧ i + 3 ≤ len - 1 := by
    intro len i
    rw [anchorList, List.mem_range'_1]
    omega
  refine ⟨hmem, fun len hlen => ?_⟩
  refine ⟨(hmem len 12).2 (by omega), (hmem len (len - 4)).2 (by omega), ?_, ?_⟩
  · intro h; have := (hmem len 11).1 h; omega
  · intro h; have := (hmem len (len - 3)).1 h; omega

/-- C5: the chronological splitter takes the first `⌊0.8 · N⌋` samples as
the train part and the rest as the test part: the parts concatenate back
to the original sequence (so order is preserved and every train sample
precedes every test sample), their lengths add up to `N`, the train
length is `⌊0.8 · N⌋`, and each part reads the original sequence at the
expected offsets. -/
theorem chronological_split {α : Type} (samples : List α) :
    trainPart samples ++ testPart samples = samples
    ∧ (trainPart samples).length = splitIndex samples.length
    ∧ (trainPart samples).length + (testPart samples).length = samples.length
    ∧ splitIndex samples.length = Nat.floor ((0.8 : ℚ) * samples.length)
    ∧ (∀ j, (testPart samples)[j]? = samples[splitIndex samples.length + j]?)
    ∧ (∀ i, i < splitIndex samples.length →
        (trainPart samples)[i]? = samples[i]?) := by
  have hle : splitIndex samples.length ≤ samples.length := by
    have h4 : samples.length * 4 ≤ samples.length * 5 := by omega
    have := Nat.div_le_div_right (c := 5) h4
    simpa [splitIndex, Nat.mul_div_cancel _ (by norm_num : (0:Nat) < 5)]
      using this
  refine ⟨List.take_append_drop _ _, ?_, ?_, ?_, ?_, ?_⟩
  · simp [trainPart, List.length_take, Nat.min_eq_left hle]
  · simp [trainPart, testPart]
    omega
  · have hcast : (0.8 : ℚ) * samples.length
        = ((samples.length * 4 : ℕ) : ℚ) / ((5 : ℕ) : ℚ) := by
      push_cast; ring
    rw [hcast, Nat.floor_div_nat, Nat.floor_natCast, splitIndex]
  · intro j
    simp [testPart, List.getElem?_drop]
  · intro i hi
    simp [trainPart, List.getElem?_take_of_lt hi]

/-- C1: the emitted label vector is indexed in entity-major blocks: the
entry at flattened position `e * horizon + k` compares entity `e`'s close
at the k-th horizon position against the baseline close at the position
just before it (`i - 1`, the anchor separating lookback from horizon),
emitting 1 on strict excess; on the spec's example series
`[0.2, 0.5, 0.1, 0.9]` with baseline `0.5` the first two horizon labels
are `[0, 1]`. -/
theorem label_vector_construction :
    (∀ (symbols : List Nat) (cl : Nat → List (Option ℚ)) (horizon i e k : Nat),
      e < symbols.length → k < horizon →
      (labelFor symbols cl horizon i)[e * horizon + k]? =
        (symbols[e]?).map (fun sym =>
          if jsGT ((cl sym).getD (i + k) none) ((cl sym).getD (i - 1) none)
          then 1 else 0))
    ∧ labelFor [5]
        (fun _ => [some (1/5), some (1/2), some (1/10), some (9/10)]) 2 2
        = [0, 1] := by
  constructor
  · intro symbols cl horizon i e k he hk
    rw [labelFor, flatMap_blocks _ horizon (fun a => by simp) symbols e k he hk]
    cases hse : symbols[e]? with
    | none => rfl
    | some sym => simp [List.getElem?_range hk]
  · with_unfolding_all decide

/-- C1 witness: the indexing law instantiated at one entity, horizon 2,
loop index 2 and flattened position 1. -/
theorem label_vector_construction_witness :
    (labelFor [5]
      (fun _ => [some (1/5), some (1/2), some (1/10), some (9/10)]) 2 2)[0 * 2 + 1]? =
      ((([5] : List Nat))[0]?).map (fun sym =>
        if jsGT (((fun _ => [some (1/5), some (1/2), some (1/10), some (9/10)] :
            Nat → List (Option ℚ)) sym).getD (2 + 1) none)
          (((fun _ => [some (1/5), some (1/2), some (1/10), some (9/10)] :
            Nat → List (Option ℚ)) sym).getD (2 - 1) none)
        then 1 else 0) :=
  label_vector_construction.1 [5]
    (fun _ => [some (1/5), some (1/2), some (1/10), some (9/10)]) 2 2 0 1
    (by norm_num) (by norm_num)

/-- A concrete two-entity close/open table: entity 1 fully observed with
strictly increasing values, entity 2 with a hole at axis position 0 that
forward fill cannot remove. -/
def demoClose (s : Nat) : List (Option ℚ) :=
  if s = 1 then (List.range 16).map (fun n => some ((n : ℚ) + 1))
  else none :: (List.range 15).map (fun n => some ((n : ℚ) + 1))

/-- C10: every entry of every emitted label vector is exactly 0 or 1,
whatever the input series (holes and NaN values included), because the
strict-greater comparison maps every operand pair to a boolean. -/
theorem label_entries_binary (symbols : List Nat) (cl : Nat → List (Option ℚ))
    (len lookback horizon : Nat) (lab : List Nat)
    (hlab : lab ∈ prepareLabels symbols cl len lookback horizon)
    (v : Nat) (hv : v ∈ lab) : v = 0 ∨ v = 1 := by
  rcases List.mem_map.1 hlab with ⟨i, _, rfl⟩
  rcases List.mem_flatMap.1 hv with ⟨sym, _, hm⟩
  rcases List.mem_map.1 hm with ⟨k, _, rfl⟩
  dsimp only
  split
  · right; rfl
  · left; rfl

/-- C10 witness: a label entry of the concrete table is 0 or 1. -/
theorem label_entries_binary_witness : (1 : Nat) = 0 ∨ (1 : Nat) = 1 :=
  label_entries_binary [1, 2] demoClose 16 12 3 [1, 1, 1, 1, 1, 1]
    (by set_option maxRecDepth 8000 in with_unfolding_all decide) 1 (by decide)

theorem lastSome_eq_none_iff (l : List (Option ℚ)) :
    lastSome l = none ↔ ∀ x ∈ l, x = none := by
  induction l with
  | nil => simp [lastSome]
  | cons x xs ih =>
    rw [lastSome]
    cases h : lastSome xs with
    | some v =>
      simp only []
      constructor
      · intro hc; exact absurd hc (by simp)
      · intro hall
        have hx : lastSome xs = none :=
          ih.mpr (fun y hy => hall y (List.mem_cons_of_mem _ hy))
        rw [h] at hx; exact absurd hx (by simp)
    | none =>
      simp only []
      constructor
      · intro hx
        intro y hy
        rcases List.mem_cons.1 hy with rfl | hmem
        · exact hx
        · exact ih.mp h y hmem
      · intro hall; exact hall x (List.mem_cons_self _ _)

theorem ffillAux_getD (l : List (Option ℚ)) :
    ∀ (acc : Option ℚ) (i : Nat), i < l.length →
      (ffillAux acc l).getD i none =
        if (l.getD i none).isSome then l.getD i none
        else if (lastSome (l.take i)).isSome then lastSome (l.take i)
        else acc := by
  induction l with
  | nil => intro acc i h; simp at h
  | cons x xs ih =>
    intro acc i h
    cases x with
    | some v =>
      rw [ffillAux_cons_some]
      cases i with
      | zero => simp
      | succ n =>
        have hn : n < xs.length := by simpa using h
        rw [List.getD_cons_succ, ih (some v) n hn, List.getD_cons_succ,
          List.take_succ_cons]
        cases h2 : lastSome (xs.take n) with
        | some w => simp [lastSome, h2]
        | none => simp [lastSome, h2]
    | none =>
      rw [ffillAux_cons_none]
      cases i with
      | zero => simp [lastSome]
      | succ n =>
        have hn : n < xs.length := by simpa using h
        rw [List.getD_cons_succ, ih acc n hn, List.getD_cons_succ,
          List.take_succ_cons]
        cases h2 : lastSome (xs.take n) with
        | some w => simp [lastSome, h2]
        | none => simp [lastSome, h2]

/-- C6: after the forward fill, the value at any in-range position equals
the original value when that was not a hole, and otherwise the value of
the nearest preceding non-hole position; consequently a position that is
still a hole after fill has only holes at and before it, i.e. holes
survive only as a leading prefix. -/
theorem forward_fill_correct (l : List (Option ℚ)) (i : Nat)
    (hi : i < l.length) :
    ((ffill l).getD i none =
      if (l.getD i none).isSome then l.getD i none else lastSome (l.take i))
    ∧ ((ffill l).getD i none = none → ∀ j, j ≤ i → l.getD j none = none) := by
  have hmain : (ffill l).getD i none =
      if (l.getD i none).isSome then l.getD i none else lastSome (l.take i) := by
    rw [ffill, ffillAux_getD l none i hi]
    by_cases h1 : (l.getD i none).isSome
    · rw [if_pos h1, if_pos h1]
    · rw [if_neg h1, if_neg h1]
      cases h2 : lastSome (l.take i) with
      | none => rfl
      | some w => rfl
  refine ⟨hmain, ?_⟩
  intro hnone j hj
  rw [hmain] at hnone
  by_cases h1 : (l.getD i none).isSome
  · rw [if_pos h1] at hnone; rw [hnone] at h1; simp at h1
  · rw [if_neg h1] at hnone
    have hall := (lastSome_eq_none_iff _).1 hnone
    rcases Nat.lt_or_ge j i with hlt | hge
    · have heq : l.getD j none = (l.take i).getD j none := by
        simp [List.getD_eq_getElem?_getD, List.getElem?_take_of_lt hlt]
      rw [heq]
      have hjt : j < (l.take i).length := by
        simp only [List.length_take]
        omega
      have hmem : (l.take i).getD j none ∈ l.take i := by
        rw [List.getD_eq_getElem?_getD, List.getElem?_eq_getElem hjt]
        exact List.getElem_mem hjt
      exact hall _ hmem
    · have hji : j = i := Nat.le_antisymm hj hge
      subst hji
      exact Option.not_isSome_iff_eq_none.1 h1

/-- C6 witness: the fill law at a concrete series with a leading hole and
an interior hole. -/
theorem forward_fill_correct_witness :
    (ffill [none, some (3 : ℚ), none]).getD 2 none =
      (if (([none, some (3 : ℚ), none] : List (Option ℚ)).getD 2 none).isSome
        then ([none, some (3 : ℚ), none] : List (Option ℚ)).getD 2 none
        else lastSome (([none, some (3 : ℚ), none] : List (Option ℚ)).take 2)) :=
  (forward_fill_correct [none, some 3, none] 2 (by norm_num)).1

/-- C3 counterexample: entity 2 carries a hole at axis position 0 that
forward fill cannot remove; the single candidate window (loop index 12,
lookback positions 0..11) touches that hole, yet the pipeline still
emits the sample — the hole is normalised to 0 and included in the first
time step, not skipped. -/
theorem hole_window_not_skipped :
    (ffill (demoClose 2)).getD 0 none = none
    ∧ anchorList 16 12 3 = [12]
    ∧ (prepareSamples [1, 2] demoClose demoClose 16 12 3).length = 1
    ∧ ((prepareSamples [1, 2] demoClose demoClose 16 12 3).getD 0 []).getD 0 []
        = [some 0, some 0, some 0, some 0] := by
  set_option maxRecDepth 8000 in with_unfolding_all decide

/-- C3 amended: the pipeline performs no hole-based exclusion at all —
every candidate loop index yields exactly one sample and one label
vector, and a value that is still a hole after forward fill enters the
window as the normalised value 0. -/
theorem no_sample_exclusion (symbols : List Nat)
    (op cl : Nat → List (Option ℚ)) (len lookback horizon : Nat) :
    (prepareSamples symbols op cl len lookback horizon).length
      = (anchorList len lookback horizon).length
    ∧ (prepareLabels symbols cl len lookback horizon).length
      = (anchorList len lookback horizon).length
    ∧ (∀ (l : List (Option ℚ)) (i : Nat), i < l.length →
        (ffill l).getD i none = none →
        (processSeries l).getD i none = some 0) := by
  refine ⟨by simp [prepareSamples], by simp [prepareLabels], ?_⟩
  intro l i hi hnone
  have hlen : i < (ffill l).length := by rw [ffill_length]; exact hi
  have hget : (ffill l)[i]? = some none := by
    rw [List.getD_eq_getElem?_getD, List.getElem?_eq_getElem hlen] at hnone
    rw [List.getElem?_eq_getElem hlen]
    simpa using hnone
  simp only [processSeries, normalizeSeries, List.getD_eq_getElem?_getD,
    List.getElem?_map, hget]
  rfl

/-- C3 witness: the no-exclusion law applied to the concrete two-entity
table with a leading hole. -/
theorem no_sample_exclusion_witness :
    (prepareSamples [1, 2] demoClose demoClose 16 12 3).length
      = (anchorList 16 12 3).length
    ∧ (processSeries (demoClose 2)).getD 0 none = some 0 :=
  ⟨(no_sample_exclusion [1, 2] demoClose demoClose 16 12 3).1,
   (no_sample_exclusion [1, 2] demoClose demoClose 16 12 3).2.2 (demoClose 2) 0
     (by decide) (by with_unfolding_all decide)⟩

/-- C4 counterexample: prepareData's inline normalisation has no
max == min guard, so a constant-valued series normalises to NaN (the
JS division 0/0, modelled `none`) at every position instead of 0. -/
theorem constant_series_normalizes_to_nan :
    normalizeSeries [some 5, some 5, some 5] = [none, none, none] := by
  with_unfolding_all decide

theorem filterMap_id_replicate_some (q : ℚ) :
    ∀ n, (List.replicate n (some q)).filterMap id = List.replicate n q := by
  intro n
  induction n with
  | zero => rfl
  | succ m ih => simp [List.replicate_succ, List.filterMap_cons, ih]

theorem foldl_min_replicate (q : ℚ) :
    ∀ n, (List.replicate n q).foldl min q = q := by
  intro n
  induction n with
  | zero => rfl
  | succ m ih => simpa [List.replicate_succ, min_self] using ih

theorem foldl_max_replicate (q : ℚ) :
    ∀ n, (List.replicate n q).foldl max q = q := by
  intro n
  induction n with
  | zero => rfl
  | succ m ih => simpa [List.replicate_succ, max_self] using ih

/-- C4 amended: the modular variant's `norm` helper is guarded (it
returns 0 whenever max = min and the scaled ratio otherwise), but the
prepareData variant divides unguarded, so there a constant series comes
back entirely NaN rather than 0. -/
theorem norm_guard_behaviour :
    (∀ v m : ℚ, norm v m m = 0)
    ∧ (∀ v mn mx : ℚ, mx ≠ mn → norm v mn mx = (v - mn) / (mx - mn))
    ∧ (∀ (q : ℚ) (n : Nat),
        normalizeSeries (List.replicate n (some q)) = List.replicate n none) := by
  have norm_eq : ∀ val mn mx : ℚ,
      norm val mn mx = if mx = mn then 0 else (val - mn) / (mx - mn) :=
    fun _ _ _ => rfl
  refine ⟨fun v m => by rw [norm_eq]; simp,
    fun v mn mx h => by rw [norm_eq, if_neg h], ?_⟩
  intro q n
  cases n with
  | zero => rfl
  | succ m =>
    simp only [normalizeSeries, filterMap_id_replicate_some]
    have hmin : listMin (List.replicate (m + 1) q) = some q := by
      rw [List.replicate_succ]
      simp only [listMin]
      rw [foldl_min_replicate]
    have hmax : listMax (List.replicate (m + 1) q) = some q := by
      rw [List.replicate_succ]
      simp only [listMax]
      rw [foldl_max_replicate]
    rw [hmin, hmax, List.map_replicate]
    simp [normElem]

/-- C4 witness: the guard at max = min = 7, the ratio at min 1 / max 5,
and the unguarded variant's NaN output on a constant series. -/
theorem norm_guard_behaviour_witness :
    norm 3 7 7 = 0 ∧ norm 3 1 5 = (3 - 1) / (5 - 1)
    ∧ normalizeSeries (List.replicate 2 (some (9 : ℚ)))
        = List.replicate 2 none :=
  ⟨norm_guard_behaviour.1 3 7, norm_guard_behaviour.2.1 3 1 5 (by norm_num),
   norm_guard_behaviour.2.2 9 2⟩

/-- C7: the aggregator classifies a predicted probability as 1 exactly
when it strictly exceeds 0.5 (so exactly 0.5 classifies as 0), and on
the spec's example — one sample, one entity, horizon 2, predictions
[0.9, 0.4], true labels [1, 1] — computes accuracy 1/2 with records
(predicted 1, actual 1, correct) and (predicted 0, actual 1, wrong). -/
theorem evaluation_aggregator :
    (∀ p : ℚ, classify p = 1 ↔ 1/2 < p)
    ∧ classify (1/2) = 0
    ∧ evaluatePerStock [[1, 1]] [[0.9, 0.4]] 2 1
        = [(some (1/2), [⟨1, 1, true⟩, ⟨0, 1, false⟩])] := by
  refine ⟨?_, ?_, ?_⟩
  · intro p
    by_cases h : 1/2 < p <;> simp [classify, h]
  · simp [classify]
  · with_unfolding_all decide

/-- C8 counterexample: called with zero samples, the aggregator does not
fail — it returns one entry per entity whose accuracy is the JS division
0/0 (NaN, modelled `none`) and whose record list is empty. -/
theorem empty_input_returns_nan :
    evaluatePerStock ([] : List (List ℚ)) [] 3 2
      = [(none, []), (none, [])] := by
  with_unfolding_all decide

/-- C8 amended: on empty prediction and label matrices the aggregator
returns normally, producing NaN accuracy (0 correct / 0 total) and an
empty record list for every entity; no EmptyInput failure path exists. -/
theorem empty_input_no_failure (horizon n : Nat) :
    evaluatePerStock [] [] horizon n
      = (List.range n).map (fun _ => (none, [])) := by
  simp [evaluatePerStock, evalStock]

/-- C9 counterexample: prepareData extracts the entity sequence with the
insertion-order-preserving `[...new Set(...)]`: rows listing entity 2
before entity 1 produce the unsorted sequence [2, 1]. -/
theorem entity_order_not_sorted :
    extractSymbols [⟨0, 2, 1, 1⟩, ⟨1, 1, 1, 1⟩] = [2, 1]
    ∧ ¬ List.Sorted (· ≤ ·) ([2, 1] : List Nat) := by
  refine ⟨rfl, ?_⟩
  intro h
  have h21 : (2 : Nat) ≤ 1 := List.rel_of_sorted_cons h 1 (by simp)
  omega

theorem mem_dedupFirstAux (l : List Nat) :
    ∀ (seen : List Nat) (x : Nat),
      x ∈ dedupFirstAux seen l ↔ x ∈ l ∧ x ∉ seen := by
  induction l with
  | nil => intro seen x; simp [dedupFirstAux]
  | cons a t ih =>
    intro seen x
    simp only [dedupFirstAux]
    by_cases ha : a ∈ seen
    · rw [if_pos ha, ih]
      constructor
      · rintro ⟨hx, hns⟩; exact ⟨List.mem_cons_of_mem _ hx, hns⟩
      · rintro ⟨hx, hns⟩
        rcases List.mem_cons.1 hx with rfl | hx'
        · exact absurd ha hns
        · exact ⟨hx', hns⟩
    · rw [if_neg ha]
      constructor
      · intro hx
        rcases List.mem_cons.1 hx with rfl | hx'
        · exact ⟨List.mem_cons_self _ _, ha⟩
        · have hmem := (ih (a :: seen) x).1 hx'
          exact ⟨List.mem_cons_of_mem _ hmem.1,
            fun hs => hmem.2 (List.mem_cons_of_mem _ hs)⟩
      · rintro ⟨hx, hns⟩
        rcases List.mem_cons.1 hx with rfl | hx'
        · exact List.mem_cons_self _ _
        · by_cases hxa : x = a
          · subst hxa; exact List.mem_cons_self _ _
          · refine List.mem_cons_of_mem _ ((ih (a :: seen) x).2 ⟨hx', ?_⟩)
            simp [List.mem_cons, hxa, hns]

theorem nodup_dedupFirstAux (l : List Nat) :
    ∀ seen : List Nat, (dedupFirstAux seen l).Nodup := by
  induction l with
  | nil => intro seen; simp [dedupFirstAux]
  | cons a t ih =>
    intro seen
    simp only [dedupFirstAux]
    by_cases ha : a ∈ seen
    · rw [if_pos ha]; exact ih seen
    · rw [if_neg ha]
      refine List.nodup_cons.2 ⟨?_, ih (a :: seen)⟩
      intro hmem
      exact ((mem_dedupFirstAux t (a :: seen) a).1 hmem).2
        (List.mem_cons_self _ _)

/-- C9 amended: the modular variant sorts the deduplicated entity set
ascending, while the prepareData variant keeps first-occurrence order —
deduplicated (no repeats, same members) but not sorted; in both, the
sequence fixed at construction drives the entity-major column layout. -/
theorem entity_set_construction :
    (∀ rows : List Row, List.Sorted (· ≤ ·) (extractSymbolsSorted rows))
    ∧ (∀ l : List Nat, (dedupFirst l).Nodup ∧ ∀ x, x ∈ dedupFirst l ↔ x ∈ l)
    ∧ extractSymbols [⟨0, 2, 1, 1⟩, ⟨1, 1, 1, 1⟩] = [2, 1] := by
  refine ⟨fun rows => List.sorted_insertionSort _ _, ?_, rfl⟩
  intro l
  refine ⟨nodup_dedupFirstAux l [], fun x => ?_⟩
  rw [dedupFirst, mem_dedupFirstAux]
  simp
